import Mathlib

set_option maxHeartbeats 1000000

/-!
Verification of generate_qt_mappings.py.

The script scans a Qt include tree and generates an include-what-you-use
mapping file.  We embed it shallowly:

* a filesystem is a list of entries; an entry has a path (components relative
  to the scanned root directory), a directory flag, and an optional text
  content (none models a file that cannot be opened or read);
* glob.glob(os.path.join(dir, "**/*[!.h]")) is modelled by a small fnmatch
  interpreter applied componentwise: without recursive=True the ** component
  behaves like *, so exactly the entries two levels below the root are
  considered, and components starting with a dot are hidden from glob;
* re.findall(r"#include \"(.*)\.h\"", text) is modelled by a scanner that,
  at each occurrence of the literal prelude, takes the longest newline-free
  capture followed by the literal .h" (greedy, non-overlapping, scanning
  resumes after the match);
* the json.dumps rendering used by build_imp_lines is modelled by a dumps
  function over a small JSON value type, with Python's ensure_ascii string
  escaping;
* file reads return Except: a header with content none makes the scan fail
  with the IOError that the script never catches.
-/

/-- The fixed list of symbols mapped to QObject by the manual overrides. -/
def QOBJECT_SYMBOLS : List String := [
    "QObjectList",
    "qFindChildren",
    "qobject_cast",
    "QT_NO_NARROWING_CONVERSIONS_IN_CONNECT",
    "Q_CLASSINFO",
    "Q_DISABLE_COPY",
    "Q_DISABLE_COPY_MOVE",
    "Q_DISABLE_MOVE",
    "Q_EMIT",
    "Q_ENUM",
    "Q_ENUM_NS",
    "Q_FLAG",
    "Q_FLAG_NS",
    "Q_GADGET",
    "Q_INTERFACES",
    "Q_INVOKABLE",
    "Q_NAMESPACE",
    "Q_NAMESPACE_EXPORT",
    "Q_OBJECT",
    "Q_PROPERTY",
    "Q_REVISION",
    "Q_SET_OBJECT_NAME",
    "Q_SIGNAL",
    "Q_SIGNALS",
    "Q_SLOT",
    "Q_SLOTS",
    "emit",
    "slots",
    "signals",
    "SIGNAL",
    "SLOT"]

/-- A symbol mapping rule: (symbol name, target public header name). -/
abbrev SymbolRule := String × String

/-- An include mapping rule:
(module name, included header name, target public header name). -/
abbrev IncludeRule := String × String × String

/-- The literal part of the include regex r'#include "(.*)\.h"' that precedes
the capturing group: the characters of the text `#include "`. -/
def includeMarker : List Char := ['#', 'i', 'n', 'c', 'l', 'u', 'd', 'e', ' ', '"']

/-- Greedy match of the part (.*)\.h" of the include regex against a suffix of
the text: the longest run of non-newline characters followed by the literal
characters .h" (the dot in the regex matches any character except newline, and
the star is greedy so backtracking settles on the last possible terminator).
Returns the capture and the text after the match, or none if the regex cannot
match here. -/
def grab : List Char → Option (List Char × List Char)
  | [] => none
  | c :: rest =>
    let deeper := if c = '\n' then none else (grab rest).map (fun p => (c :: p.1, p.2))
    match deeper with
    | some p => some p
    | none =>
      match c, rest with
      | '.', 'h' :: '"' :: r => some ([], r)
      | _, _ => none

/-- One pass of re.findall over the text: at each position, if the literal
prelude of the regex matches, try the greedy capture; on success record it and
resume scanning after the match (matches do not overlap), otherwise move one
character forward.  The fuel argument bounds recursion; it is instantiated
with the length of the text, which always suffices because every step consumes
at least one character. -/
def scanIncludes : Nat → List Char → List (List Char)
  | 0, _ => []
  | _ + 1, [] => []
  | fuel + 1, c :: rest =>
    if includeMarker.isPrefixOf (c :: rest) then
      match grab ((c :: rest).drop 10) with
      | some (s, r) => s :: scanIncludes fuel r
      | none => scanIncludes fuel rest
    else scanIncludes fuel rest

/-- re.findall(r'#include "(.*)\.h"', text): all captures in text order. -/
def findIncludes (cs : List Char) : List (List Char) := scanIncludes cs.length cs

/-- The error raised when a file cannot be opened or read (Python IOError /
OSError).  The script installs no handler for it. -/
inductive IOError where
  | ioError
  deriving DecidableEq

/-- Carry data associated with a Qt header (class QtHeader).  The headername
is kept as path components relative to the scanned root; classname and
modulename are derived from it exactly as os.path.basename(headername) and
os.path.basename(os.path.dirname(headername)) do for the paths produced by
the glob, which always have two components below the root. -/
structure QtHeader where
  headername : List String
  content : Option (List Char)
  deriving DecidableEq

/-- self.classname = os.path.basename(headername): the last path component. -/
def QtHeader.classname (h : QtHeader) : String := h.headername.getLastD ""

/-- self.modulename = os.path.basename(os.path.dirname(headername)): the
next-to-last path component. -/
def QtHeader.modulename (h : QtHeader) : String := h.headername.dropLast.getLastD ""

/-- QtHeader.get_private_headers: read the header file and return the list of
regex captures.  Opening an unreadable file raises IOError.  (The Python
object caches the list after the first read; the cache is a pure memoisation
of this value and needs no separate model.) -/
def QtHeader.get_private_headers (h : QtHeader) : Except IOError (List String) :=
  match h.content with
  | some cs => .ok ((findIncludes cs).map String.mk)
  | none => .error .ioError

/-- A filesystem entry: path components below the scanned root directory,
whether the entry is a directory, and the file content (none when the file
exists in the tree but cannot be opened or read). -/
structure Entry where
  path : List String
  isDir : Bool
  content : Option (List Char)
  deriving DecidableEq

/-- fnmatch-style matching of one glob pattern component against one name,
supporting the constructs appearing in the pattern **/*[!.h]: a star matches
any (possibly empty) run of characters, a [!...] class matches one character
not listed, and any other pattern character matches itself.  The fuel bounds
the recursion (every recursive call shrinks pattern length plus name length);
the fnmatch wrapper below supplies enough of it. -/
def fnmatchAux : Nat → List Char → List Char → Bool
  | 0, _, _ => false
  | _ + 1, [], s => s.isEmpty
  | fuel + 1, '*' :: p, s =>
    fnmatchAux fuel p s ||
      (match s with
       | [] => false
       | _ :: s2 => fnmatchAux fuel ('*' :: p) s2)
  | fuel + 1, '[' :: '!' :: p, s =>
    (match s with
     | [] => false
     | c :: s2 =>
       !((p.takeWhile (fun x => x ≠ ']')).contains c) &&
         fnmatchAux fuel ((p.dropWhile (fun x => x ≠ ']')).drop 1) s2)
  | fuel + 1, c :: p, s =>
    match s with
    | [] => false
    | d :: s2 => (c == d) && fnmatchAux fuel p s2

/-- fnmatch of a pattern component against a name. -/
def fnmatch (p s : List Char) : Bool := fnmatchAux (p.length + s.length + 1) p s

/-- glob hides entries whose name starts with a dot when the pattern component
does not itself start with a dot (neither ** nor *[!.h] does). -/
def hiddenName (s : String) : Bool :=
  match s.data with
  | '.' :: _ => true
  | _ => false

/-- The first pattern component of **/*[!.h]. -/
def starstarPat : List Char := ['*', '*']

/-- The second pattern component of **/*[!.h]. -/
def classPat : List Char := ['*', '[', '!', '.', 'h', ']']

/-- Whether glob.glob(os.path.join(root, '**/*[!.h]')) returns this entry:
without recursive matching the pattern has exactly two components below the
root, ** matched against the first and *[!.h] against the second, with
dot-initial names hidden at both levels. -/
def globMatch (e : Entry) : Bool :=
  match e.path with
  | [d, f] =>
    !hiddenName d && fnmatch starstarPat d.data &&
      (!hiddenName f && fnmatch classPat f.data)
  | _ => false

/-- headers = glob.glob(os.path.join(qt_include_dir, '**/*[!.h]')), in the
enumeration order of the filesystem list. -/
def globHeaders (fs : List Entry) : List Entry := fs.filter globMatch

/-- The manual symbol overrides added before the scan:
symbols_map += [("qDebug", "QtGlobal")] and one entry per QOBJECT_SYMBOLS
member mapping it to "QObject". -/
def manualSymbols : List SymbolRule :=
  ("qDebug", "QtGlobal") :: QOBJECT_SYMBOLS.map (fun s => (s, "QObject"))

/-- The manual include override: includes_map += [("QtCore", "qnamespace", "Qt")]. -/
def manualIncludes : List IncludeRule := [("QtCore", "qnamespace", "Qt")]

/-- add_mapping_rules(header, symbols_map, includes_map): append the header's
own symbol rule and one include rule per private header found in its text.
Reading the header may raise IOError, which propagates. -/
def add_mapping_rules (header : QtHeader) (symbols_map : List SymbolRule)
    (includes_map : List IncludeRule) : Except IOError (List SymbolRule × List IncludeRule) :=
  match header.get_private_headers with
  | .ok privs =>
    .ok (symbols_map ++ [(header.classname, header.classname)],
      includes_map ++ privs.map (fun inc => (header.modulename, inc, header.classname)))
  | .error er => .error er

/-- The mutable state of main's scan: the two rule lists and the headers
deferred because their class name equals their module name. -/
structure ScanState where
  symbols_map : List SymbolRule
  includes_map : List IncludeRule
  deferred_headers : List QtHeader
  deriving DecidableEq

/-- The first for-loop of main over the glob results: skip directories, skip
QInternal, defer headers whose class name equals their module name, and add
mapping rules for the rest. -/
def scanLoop : List Entry → ScanState → Except IOError ScanState
  | [], st => .ok st
  | e :: rest, st =>
    if e.isDir then scanLoop rest st
    else
      let header : QtHeader := ⟨e.path, e.content⟩
      if header.classname = "QInternal" then scanLoop rest st
      else if header.classname = header.modulename then
        scanLoop rest { st with deferred_headers := st.deferred_headers ++ [header] }
      else
        match add_mapping_rules header st.symbols_map st.includes_map with
        | .ok p => scanLoop rest { st with symbols_map := p.1, includes_map := p.2 }
        | .error er => .error er

/-- The second for-loop of main, over the deferred headers. -/
def deferLoop : List QtHeader → ScanState → Except IOError ScanState
  | [], st => .ok st
  | h :: rest, st =>
    match add_mapping_rules h st.symbols_map st.includes_map with
    | .ok p => deferLoop rest { st with symbols_map := p.1, includes_map := p.2 }
    | .error er => .error er

/-- The rule-collection part of main: manual overrides, then the scan of the
glob results, then the deferred headers, yielding the final pair of rule
lists (or the IOError that aborted the scan). -/
def scan (fs : List Entry) : Except IOError (List SymbolRule × List IncludeRule) :=
  match scanLoop (globHeaders fs) ⟨manualSymbols, manualIncludes, []⟩ with
  | .error er => .error er
  | .ok st1 =>
    match deferLoop st1.deferred_headers st1 with
    | .error er => .error er
    | .ok st2 => .ok (st2.symbols_map, st2.includes_map)

/-- One hexadecimal digit, lowercase, as Python's %04x formatting uses. -/
def hexDigit (n : Nat) : Char := if n < 10 then Char.ofNat (48 + n) else Char.ofNat (87 + n)

/-- Four lowercase hexadecimal digits of a number below 0x10000. -/
def hex4 (n : Nat) : List Char :=
  [hexDigit (n / 4096 % 16), hexDigit (n / 256 % 16), hexDigit (n / 16 % 16), hexDigit (n % 16)]

/-- Python json.dumps escaping of one character with the default
ensure_ascii=True: backslash, double quote, and every character outside the
printable ASCII range 0x20..0x7e are escaped; the short escapes of the escape
table come first, other characters below 0x10000 become a single uXXXX escape
and characters beyond the basic multilingual plane a surrogate pair. -/
def escapeChar (c : Char) : List Char :=
  if c = '\\' then ['\\', '\\']
  else if c = '"' then ['\\', '"']
  else if 0x20 ≤ c.toNat ∧ c.toNat ≤ 0x7e then [c]
  else if c = '\x08' then ['\\', 'b']
  else if c = '\t' then ['\\', 't']
  else if c = '\n' then ['\\', 'n']
  else if c = '\x0c' then ['\\', 'f']
  else if c = '\r' then ['\\', 'r']
  else if c.toNat < 0x10000 then '\\' :: 'u' :: hex4 c.toNat
  else
    let v := c.toNat - 0x10000
    ('\\' :: 'u' :: hex4 (0xD800 + v / 0x400)) ++ ('\\' :: 'u' :: hex4 (0xDC00 + v % 0x400))

/-- json.dumps escaping of a whole string body (without the outer quotes). -/
def jsonEscape (cs : List Char) : List Char := cs.flatMap escapeChar

/-- str.join: the separator interleaved between the pieces. -/
def joinSep (sep : String) : List String → String
  | [] => ""
  | [x] => x
  | x :: rest => x ++ sep ++ joinSep sep rest

/-- The JSON values handed to json.dumps by build_imp_lines: strings, arrays
and objects. -/
inductive JValue where
  | str (s : String)
  | arr (l : List JValue)
  | obj (l : List (String × JValue))

mutual

/-- json.dumps with its default formatting: compact on one line, with the
default separators, a comma and a space between items and a colon and a space
after a key, and ensure_ascii string escaping. -/
def dumps : JValue → String
  | .str s => "\"" ++ String.mk (jsonEscape s.data) ++ "\""
  | .arr l => "[" ++ joinSep ", " (dumpList l) ++ "]"
  | .obj l => "\x7b" ++ joinSep ", " (dumpObj l) ++ "\x7d"

def dumpList : List JValue → List String
  | [] => []
  | v :: rest => dumps v :: dumpList rest

def dumpObj : List (String × JValue) → List String
  | [] => []
  | (k, v) :: rest =>
    ("\"" ++ String.mk (jsonEscape k.data) ++ "\"" ++ ": " ++ dumps v) :: dumpObj rest
end

/-- jsonline(mapping): two spaces of indentation followed by the compact JSON
rendering. -/
def jsonline (mapping : JValue) : String := "  " ++ dumps mapping

/-- The JSON value of one symbol rule:
\x7b"symbol": [symbol, "private", "<header>", "public"]\x7d. -/
def symbolJson (r : SymbolRule) : JValue :=
  .obj [("symbol", .arr [.str r.1, .str "private", .str ("<" ++ r.2 ++ ">"), .str "public"])]

/-- The map-from regex of one include rule, the formatting
r'@["<](%s/)?%s\.h[">]' % (module, include): an at-prefixed regex matching a
quoted or angled include of the header, optionally qualified by the module
directory. -/
def map_from (r : IncludeRule) : String :=
  "@[\"<](" ++ r.1 ++ "/)?" ++ r.2.1 ++ "\\.h[\">]"

/-- The JSON value of one include rule:
\x7b"include": [map_from, "private", "<header>", "public"]\x7d. -/
def includeJson (r : IncludeRule) : JValue :=
  .obj [("include", .arr [.str (map_from r), .str "private", .str ("<" ++ r.2.2 ++ ">"), .str "public"])]

/-- build_imp_lines(symbols_map, includes_map): all symbol lines in order,
then all include lines in order, joined with comma-newline and wrapped in a
JSON array spread over the lines. -/
def build_imp_lines (symbols_map : List SymbolRule) (includes_map : List IncludeRule) : String :=
  let root := symbols_map.map (fun r => jsonline (symbolJson r)) ++
    includes_map.map (fun r => jsonline (includeJson r))
  "[\n" ++ joinSep ",\n" root ++ "\n]\n"

/-- OUTFILEHDR: the generated-file comment, with os.path.basename(__file__)
interpolated. -/
def OUTFILEHDR : String :=
  "# Do not edit! This file was generated by the script generate_qt_mappings.py."

/-- The text written to the output file: print(OUTFILEHDR) then print(lines),
each print appending one newline. -/
def outputDocument (symbols_map : List SymbolRule) (includes_map : List IncludeRule) : String :=
  OUTFILEHDR ++ "\n" ++ build_imp_lines symbols_map includes_map ++ "\n"

/-- main(qt_include_dir, output_file): collect the rules and write the
document, or abort with the first uncaught IOError.  The returned string is
the full content of the output file. -/
def mainProgram (fs : List Entry) : Except IOError String :=
  match scan fs with
  | .ok p => .ok (outputDocument p.1 p.2)
  | .error er => .error er

/-- The QtHeader record main builds from a discovered filesystem entry. -/
def entryHeader (e : Entry) : QtHeader := ⟨e.path, e.content⟩

/-- Whether the scan loop processes this glob result at all: not a directory
and not named QInternal. -/
def processedKeep (e : Entry) : Bool :=
  !e.isDir && ((entryHeader e).classname != "QInternal")

/-- Whether a processed entry is deferred: class name equals module name. -/
def entryDeferred (e : Entry) : Bool :=
  (entryHeader e).classname == (entryHeader e).modulename

/-- The scan loop handles this entry immediately: processed and not deferred. -/
def keepNormal (e : Entry) : Bool := processedKeep e && !entryDeferred e

/-- The scan loop defers this entry: processed with class name equal to
module name. -/
def keepDeferred (e : Entry) : Bool := processedKeep e && entryDeferred e

/-- The glob results processed immediately, in order. -/
def normalEntries (fs : List Entry) : List Entry := (globHeaders fs).filter keepNormal

/-- The glob results deferred to the second loop, in order. -/
def deferredEntries (fs : List Entry) : List Entry := (globHeaders fs).filter keepDeferred

/-- The symbol rule a processed header contributes. -/
def headerSymbolRule (h : QtHeader) : SymbolRule := (h.classname, h.classname)

/-- The include rules a processed header contributes, one per private header
found in its text (reading an unreadable header aborts the scan instead, so
this total function is only used to describe successful scans). -/
def headerIncludeRules (h : QtHeader) : List IncludeRule :=
  ((findIncludes (h.content.getD [])).map String.mk).map
    (fun inc => (h.modulename, inc, h.classname))

/-- The header catalog: the glob results that survive the directory check. -/
def candidates (fs : List Entry) : List Entry :=
  (globHeaders fs).filter (fun e => !e.isDir)

/-- A JSON string literal of the documented rule format: standard JSON string
escaping between double quotes. -/
def claimJsonStr (s : String) : String := "\"" ++ String.mk (jsonEscape s.data) ++ "\""

/-- A symbol rule line as the specification describes it: the single-key
object \x7b"symbol": [symbolName, "private", "<targetHeader>", "public"]\x7d
rendered compactly on one line of the array. -/
def claimSymbolLine (r : SymbolRule) : String :=
  "  " ++ "\x7b" ++ claimJsonStr "symbol" ++ ": " ++ "[" ++
    joinSep ", " [claimJsonStr r.1, claimJsonStr "private",
      claimJsonStr ("<" ++ r.2 ++ ">"), claimJsonStr "public"] ++ "]" ++ "\x7d"

/-- An include rule line as the specification describes it: the single-key
object \x7b"include": [matchPattern, "private", "<targetHeader>", "public"]\x7d
with the at-prefixed regex pattern. -/
def claimIncludeLine (r : IncludeRule) : String :=
  "  " ++ "\x7b" ++ claimJsonStr "include" ++ ": " ++ "[" ++
    joinSep ", " [claimJsonStr (map_from r), claimJsonStr "private",
      claimJsonStr ("<" ++ r.2.2 ++ ">"), claimJsonStr "public"] ++ "]" ++ "\x7d"

/-- The output document as the specification describes it: first a
generated-file comment line naming the generating script, then one top-level
JSON array holding every symbol rule line before every include rule line,
each sublist in insertion order. -/
def claimDocument (symbols_map : List SymbolRule) (includes_map : List IncludeRule) : String :=
  OUTFILEHDR ++ "\n" ++
    ("[\n" ++ joinSep ",\n"
        (symbols_map.map claimSymbolLine ++ includes_map.map claimIncludeLine) ++
      "\n]\n") ++ "\n"

/-- Modelled from the spec: the value of one hexadecimal digit as it appears
in a uXXXX escape of the documented rule-file format (the generator emits
lowercase digits). -/
def hexVal (c : Char) : Option Nat :=
  if '0' ≤ c ∧ c ≤ '9' then some (c.toNat - 48)
  else if 'a' ≤ c ∧ c ≤ 'f' then some (c.toNat - 87)
  else none

/-- Modelled from the spec: a four-digit hexadecimal escape value. -/
def hex4Val (a b c d : Char) : Option Nat := do
  let x ← hexVal a
  let y ← hexVal b
  let z ← hexVal c
  let w ← hexVal d
  some (((x * 16 + y) * 16 + z) * 16 + w)

/-- Modelled from the spec: the one-character JSON escapes. -/
def unescapeChar (c : Char) : Option Char :=
  if c = '"' then some '"'
  else if c = '\\' then some '\\'
  else if c = '/' then some '/'
  else if c = 'b' then some '\x08'
  else if c = 'f' then some '\x0c'
  else if c = 'n' then some '\n'
  else if c = 'r' then some '\r'
  else if c = 't' then some '\t'
  else none

/-- Modelled from the spec: read a JSON string body up to its closing quote,
decoding backslash escapes, uXXXX escapes and surrogate pairs; returns the
decoded characters and the input after the closing quote.  This is the string
syntax of the documented array-of-single-key-objects format, which is not
itself implemented in this repository (the rule file is consumed by an
external header-remapping tool). -/
def parseJsonString : List Char → Option (List Char × List Char)
  | [] => none
  | '"' :: rest => some ([], rest)
  | '\\' :: esc =>
    match esc with
    | 'u' :: a :: b :: c :: d :: rest =>
      (match hex4Val a b c d with
       | none => none
       | some n =>
         if 0xD800 ≤ n ∧ n < 0xDC00 then
           match rest with
           | e1 :: e2 :: a2 :: b2 :: c2 :: d2 :: rest2 =>
             if e1 = '\\' ∧ e2 = 'u' then
               (match hex4Val a2 b2 c2 d2 with
                | none => none
                | some m =>
                  if 0xDC00 ≤ m ∧ m < 0xE000 then
                    (parseJsonString rest2).map
                      (fun p =>
                        (Char.ofNat (0x10000 + (n - 0xD800) * 0x400 + (m - 0xDC00)) :: p.1,
                          p.2))
                  else none)
             else none
           | _ => none
         else (parseJsonString rest).map (fun p => (Char.ofNat n :: p.1, p.2)))
    | e :: rest =>
      (match unescapeChar e with
       | none => none
       | some d => (parseJsonString rest).map (fun p => (d :: p.1, p.2)))
    | [] => none
  | c :: rest => (parseJsonString rest).map (fun p => (c :: p.1, p.2))

/-- Modelled from the spec: consume an expected literal. -/
def expectLit (lit cs : List Char) : Option (List Char) :=
  if lit.isPrefixOf cs then some (cs.drop lit.length) else none

/-- Modelled from the spec: a quoted JSON string token. -/
def parseStringTok : List Char → Option (List Char × List Char)
  | '"' :: rest => parseJsonString rest
  | _ => none

/-- Modelled from the spec: split a pattern core at the first occurrence of
the three characters closing the optional module-prefix group and separating
it from the include name in the documented map-from pattern. -/
def splitAtSep : List Char → Option (List Char × List Char)
  | [] => none
  | c :: rest =>
    if ['/', ')', '?'].isPrefixOf (c :: rest) then some ([], rest.drop 2)
    else (splitAtSep rest).map (fun p => (c :: p.1, p.2))

/-- The fixed head of the documented map-from pattern. -/
def patHead : List Char := ['@', '[', '"', '<', ']', '(']

/-- The fixed tail of the documented map-from pattern. -/
def patTail : List Char := ['\\', '.', 'h', '[', '"', '>', ']']

/-- Modelled from the spec: recover module and include name from a map-from
pattern of the documented shape. -/
def decomposePattern (p : List Char) : Option (String × String) :=
  match expectLit patHead p with
  | none => none
  | some mid =>
    if 7 ≤ mid.length ∧ mid.drop (mid.length - 7) = patTail then
      match splitAtSep (mid.take (mid.length - 7)) with
      | some (m, n) => some (String.mk m, String.mk n)
      | none => none
    else none

/-- Modelled from the spec: recover a header name from its angle-bracketed
map-to string. -/
def stripAngles (v : List Char) : Option String :=
  match v with
  | '<' :: t => if t.getLast? = some '>' then some (String.mk t.dropLast) else none
  | _ => none

/-- A parsed rule of the documented format, as read off one line. -/
inductive PRule where
  | sym (s h : String)
  | inc (m n h : String)
  deriving DecidableEq

/-- Modelled from the spec: parse one rule line, a single-key object whose
value is a four-element array with the fixed "private" and "public" markers,
keyed "symbol" or "include". -/
def parseRuleLine (cs : List Char) : Option (PRule × List Char) := do
  let r1 ← expectLit [' ', ' ', '\x7b'] cs
  let (key, r2) ← parseStringTok r1
  let r3 ← expectLit [':', ' ', '['] r2
  let (v1, r4) ← parseStringTok r3
  let r5 ← expectLit [',', ' '] r4
  let (v2, r6) ← parseStringTok r5
  let r7 ← expectLit [',', ' '] r6
  let (v3, r8) ← parseStringTok r7
  let r9 ← expectLit [',', ' '] r8
  let (v4, r10) ← parseStringTok r9
  let r11 ← expectLit [']', '\x7d'] r10
  if String.mk v2 = "private" ∧ String.mk v4 = "public" then
    if String.mk key = "symbol" then
      match stripAngles v3 with
      | some hh => some (.sym (String.mk v1) hh, r11)
      | none => none
    else if String.mk key = "include" then
      match stripAngles v3, decomposePattern v1 with
      | some hh, some (m, n) => some (.inc m n hh, r11)
      | _, _ => none
    else none
  else none

/-- Modelled from the spec: parse the comma-separated rule lines of the array
body up to the closing bracket.  The fuel bounds recursion and is instantiated
with the body length, which suffices because every line is nonempty. -/
def parseLinesAux : Nat → List Char → Option (List PRule)
  | 0, _ => none
  | fuel + 1, cs =>
    match parseRuleLine cs with
    | none => none
    | some (r, rest) =>
      if rest = ['\n', ']', '\n', '\n'] then some [r]
      else
        match rest with
        | c1 :: c2 :: rest2 =>
          if c1 = ',' ∧ c2 = '\n' then (parseLinesAux fuel rest2).map (fun l => r :: l)
          else none
        | _ => none

/-- Modelled from the spec: distribute the parsed rules back into the ordered
symbol-rule and include-rule lists. -/
def ruleSplit (l : List PRule) : List SymbolRule × List IncludeRule :=
  (l.filterMap (fun r => match r with | .sym s hh => some (s, hh) | _ => none),
    l.filterMap (fun r => match r with | .inc m n hh => some (m, n, hh) | _ => none))

/-- Modelled from the spec: parse a whole rule document, skipping the leading
generated-file comment line and reading the array of single-key objects.  The
rule file format is consumed by an external tool that is not part of this
repository; this parser realises the documented reading of that format. -/
def parseDocument (doc : String) : Option (List SymbolRule × List IncludeRule) :=
  match (doc.data.dropWhile (fun c => c ≠ '\n')).drop 1 with
  | c1 :: c2 :: rest =>
    if c1 = '[' ∧ c2 = '\n' then
      if rest = ['\n', ']', '\n', '\n'] then some ([], [])
      else (parseLinesAux rest.length rest).map ruleSplit
    else none
  | _ => none

/-- A parsed rule rendered the way the serializer renders it. -/
def claimLine : PRule → String
  | .sym s hh => claimSymbolLine (s, hh)
  | .inc m n hh => claimIncludeLine (m, n, hh)

/-- The module name of an include rule avoids the three-character sequence
that separates the optional module group from the include name in the
documented map-from pattern (the ambiguity witness of the format). -/
def incFree (r : PRule) : Prop :=
  match r with
  | .sym _ _ => True
  | .inc m _ _ => ∀ a b : List Char, m.data ≠ a ++ '/' :: ')' :: '?' :: b

deriving instance DecidableEq for Except

lemma fnmatchAux_nil (fuel : Nat) (s : List Char) (h : 1 ≤ fuel) :
    fnmatchAux fuel [] s = s.isEmpty := by
  cases fuel with
  | zero => omega
  | succ f => rfl

lemma fnmatchAux_star (fuel : Nat) (s : List Char) (h : s.length + 2 ≤ fuel) :
    fnmatchAux fuel ['*'] s = true := by
  induction s generalizing fuel with
  | nil =>
    cases fuel with
    | zero => omega
    | succ f =>
      simp only [fnmatchAux]
      rw [fnmatchAux_nil f [] (by simp at h; omega)]
      rfl
  | cons c s2 ih =>
    cases fuel with
    | zero => omega
    | succ f =>
      simp only [fnmatchAux]
      rw [ih f (by simp at h ⊢; omega)]
      simp

lemma fnmatch_starstar (s : List Char) : fnmatch starstarPat s = true := by
  show fnmatchAux (2 + s.length + 1) ('*' :: ['*']) s = true
  cases h : 2 + s.length + 1 with
  | zero => omega
  | succ f =>
    simp only [fnmatchAux]
    rw [fnmatchAux_star f s (by omega)]
    simp

lemma fnmatchAux_cls (fuel : Nat) (s : List Char) (h : 2 ≤ fuel) :
    (fnmatchAux fuel ['[', '!', '.', 'h', ']'] s = true) ↔
      ∃ c, s = [c] ∧ c ≠ '.' ∧ c ≠ 'h' := by
  cases fuel with
  | zero => omega
  | succ f =>
    cases s with
    | nil => simp [fnmatchAux]
    | cons c s2 =>
      simp only [fnmatchAux]
      rw [show ((['.', 'h', ']'].takeWhile fun x => x ≠ ']') = ['.', 'h']) from by decide,
        show ((['.', 'h', ']'].dropWhile fun x => x ≠ ']').drop 1 = []) from by decide,
        fnmatchAux_nil f s2 (by omega)]
      cases s2 with
      | nil => simp [List.contains]
      | cons d s3 => simp

lemma fnmatchAux_classPat (fuel : Nat) (s : List Char) (h : s.length + 3 ≤ fuel) :
    (fnmatchAux fuel classPat s = true) ↔
      ∃ c, s.getLast? = some c ∧ c ≠ '.' ∧ c ≠ 'h' := by
  induction s generalizing fuel with
  | nil =>
    cases fuel with
    | zero => omega
    | succ f =>
      simp only [classPat, fnmatchAux]
      rw [Bool.or_eq_true, fnmatchAux_cls f [] (by omega)]
      simp
  | cons c s2 ih =>
    cases fuel with
    | zero => omega
    | succ f =>
      have ih2 := ih f (by simp at h ⊢; omega)
      simp only [classPat] at ih2
      simp only [classPat, fnmatchAux]
      rw [Bool.or_eq_true, fnmatchAux_cls f (c :: s2) (by omega), ih2]
      cases s2 with
      | nil => simp
      | cons d s3 => simp

lemma fnmatch_classPat (s : List Char) :
    (fnmatch classPat s = true) ↔ ∃ c, s.getLast? = some c ∧ c ≠ '.' ∧ c ≠ 'h' := by
  exact fnmatchAux_classPat (classPat.length + s.length + 1) s (by simp [classPat]; omega)

lemma globMatch_iff (e : Entry) :
    (globMatch e = true) ↔
      ∃ d f, e.path = [d, f] ∧ hiddenName d = false ∧ hiddenName f = false ∧
        ∃ c, f.data.getLast? = some c ∧ c ≠ '.' ∧ c ≠ 'h' := by
  unfold globMatch
  cases hp : e.path with
  | nil => simp
  | cons a t =>
    cases t with
    | nil => simp
    | cons b t2 =>
      cases t2 with
      | nil =>
        simp only [Bool.and_eq_true, Bool.not_eq_true']
        rw [fnmatch_classPat]
        constructor
        · rintro ⟨⟨hd, -⟩, hf, hc⟩
          exact ⟨a, b, rfl, hd, hf, hc⟩
        · rintro ⟨d, f, hdf, hd, hf, hc⟩
          injection hdf with h1 h2
          injection h2 with h2 h3
          subst h1; subst h2
          exact ⟨⟨hd, fnmatch_starstar _⟩, hf, hc⟩
      | cons u t3 => simp

lemma scanLoop_ok (l : List Entry) (st st2 : ScanState) (h : scanLoop l st = .ok st2) :
    st2.symbols_map = st.symbols_map ++
        (l.filter keepNormal).map (fun e => headerSymbolRule (entryHeader e)) ∧
      st2.includes_map = st.includes_map ++
        (l.filter keepNormal).flatMap (fun e => headerIncludeRules (entryHeader e)) ∧
      st2.deferred_headers = st.deferred_headers ++ (l.filter keepDeferred).map entryHeader := by
  induction l generalizing st with
  | nil =>
    simp only [scanLoop] at h
    cases h
    simp
  | cons e rest ih =>
    simp only [scanLoop] at h
    simp only [show (⟨e.path, e.content⟩ : QtHeader) = entryHeader e from rfl] at h
    by_cases hdir : e.isDir
    · rw [if_pos hdir] at h
      rw [List.filter_cons_of_neg (by simp [keepNormal, processedKeep, hdir]),
        List.filter_cons_of_neg (by simp [keepDeferred, processedKeep, hdir])]
      exact ih st h
    · rw [if_neg hdir] at h
      by_cases hqi : (entryHeader e).classname = "QInternal"
      · rw [if_pos hqi] at h
        rw [List.filter_cons_of_neg (by simp [keepNormal, processedKeep, hqi]),
          List.filter_cons_of_neg (by simp [keepDeferred, processedKeep, hqi])]
        exact ih st h
      · rw [if_neg hqi] at h
        by_cases hdef : (entryHeader e).classname = (entryHeader e).modulename
        · rw [if_pos hdef] at h
          obtain ⟨h1, h2, h3⟩ := ih _ h
          have hkd : keepDeferred e = true := by
            simp [keepDeferred, processedKeep, entryDeferred, hdir, hqi]
            exact hdef
          rw [List.filter_cons_of_neg (by simp [keepNormal, entryDeferred, hdef]),
            List.filter_cons_of_pos hkd]
          refine ⟨by simpa using h1, by simpa using h2, ?_⟩
          rw [h3]
          simp
        · rw [if_neg hdef] at h
          cases hc : e.content with
          | none =>
            simp only [add_mapping_rules, QtHeader.get_private_headers, entryHeader, hc] at h
            simp at h
          | some cs =>
            simp only [add_mapping_rules, QtHeader.get_private_headers, entryHeader, hc] at h
            obtain ⟨h1, h2, h3⟩ := ih _ h
            rw [List.filter_cons_of_pos
                (by simp [keepNormal, processedKeep, entryDeferred, hdir, hqi, hdef]),
              List.filter_cons_of_neg (by simp [keepDeferred, entryDeferred, hdef])]
            refine ⟨?_, ?_, by simpa using h3⟩
            · rw [h1]
              simp [headerSymbolRule, entryHeader, QtHeader.classname]
            · rw [h2]
              simp [headerIncludeRules, entryHeader, hc, QtHeader.classname, QtHeader.modulename]

lemma deferLoop_ok (l : List QtHeader) (st st2 : ScanState) (h : deferLoop l st = .ok st2) :
    st2.symbols_map = st.symbols_map ++ l.map headerSymbolRule ∧
      st2.includes_map = st.includes_map ++ l.flatMap headerIncludeRules := by
  induction l generalizing st with
  | nil =>
    simp only [deferLoop] at h
    cases h
    simp
  | cons hd rest ih =>
    simp only [deferLoop] at h
    cases hc : hd.content with
    | none =>
      simp only [add_mapping_rules, QtHeader.get_private_headers, hc] at h
      simp at h
    | some cs =>
      simp only [add_mapping_rules, QtHeader.get_private_headers, hc] at h
      obtain ⟨h1, h2⟩ := ih _ h
      constructor
      · rw [h1]
        simp [headerSymbolRule]
      · rw [h2]
        simp [headerIncludeRules, hc]

lemma scan_ok (fs : List Entry) (s : List SymbolRule) (i : List IncludeRule)
    (h : scan fs = .ok (s, i)) :
    s = manualSymbols ++
        (normalEntries fs).map (fun e => headerSymbolRule (entryHeader e)) ++
        (deferredEntries fs).map (fun e => headerSymbolRule (entryHeader e)) ∧
      i = manualIncludes ++
        (normalEntries fs).flatMap (fun e => headerIncludeRules (entryHeader e)) ++
        (deferredEntries fs).flatMap (fun e => headerIncludeRules (entryHeader e)) := by
  unfold scan at h
  cases h1 : scanLoop (globHeaders fs) ⟨manualSymbols, manualIncludes, []⟩ with
  | error er => rw [h1] at h; simp at h
  | ok st1 =>
    rw [h1] at h
    dsimp only [] at h
    cases h2 : deferLoop st1.deferred_headers st1 with
    | error er => rw [h2] at h; simp at h
    | ok st2 =>
      rw [h2] at h
      cases h
      obtain ⟨a1, a2, a3⟩ := scanLoop_ok _ _ _ h1
      obtain ⟨b1, b2⟩ := deferLoop_ok _ _ _ h2
      simp only [a3, List.nil_append] at b1 b2
      constructor
      · rw [b1, a1]
        simp only [normalEntries, deferredEntries, globHeaders, List.map_map,
          List.append_assoc]
        rfl
      · rw [b2, a2]
        simp only [normalEntries, deferredEntries, globHeaders, List.append_assoc]
        rw [List.flatMap_map]

lemma scanLoop_ok_readable (l : List Entry) (st st2 : ScanState)
    (h : scanLoop l st = .ok st2) :
    ∀ e ∈ l, keepNormal e = true → e.content ≠ none := by
  induction l generalizing st with
  | nil => intro e he; simp at he
  | cons e rest ih =>
    intro x hx hkx
    simp only [scanLoop] at h
    simp only [show (⟨e.path, e.content⟩ : QtHeader) = entryHeader e from rfl] at h
    rcases List.mem_cons.mp hx with hxe | hxr
    · subst hxe
      intro hcn
      have hdir : x.isDir = false := by
        have := hkx
        simp [keepNormal, processedKeep] at this
        simpa using this.1.1
      have hqi : ¬(entryHeader x).classname = "QInternal" := by
        have := hkx
        simp [keepNormal, processedKeep] at this
        simpa using this.1.2
      have hdef : ¬(entryHeader x).classname = (entryHeader x).modulename := by
        have := hkx
        simp [keepNormal, entryDeferred] at this
        exact this.2
      rw [if_neg (by simp [hdir]), if_neg hqi, if_neg hdef] at h
      simp only [add_mapping_rules, QtHeader.get_private_headers, entryHeader, hcn] at h
      simp at h
    · by_cases hdir : e.isDir
      · rw [if_pos hdir] at h
        exact ih st h x hxr hkx
      · rw [if_neg hdir] at h
        by_cases hqi : (entryHeader e).classname = "QInternal"
        · rw [if_pos hqi] at h
          exact ih st h x hxr hkx
        · rw [if_neg hqi] at h
          by_cases hdef : (entryHeader e).classname = (entryHeader e).modulename
          · rw [if_pos hdef] at h
            exact ih _ h x hxr hkx
          · rw [if_neg hdef] at h
            cases hc : e.content with
            | none =>
              simp only [add_mapping_rules, QtHeader.get_private_headers, entryHeader,
                hc] at h
              simp at h
            | some cs =>
              simp only [add_mapping_rules, QtHeader.get_private_headers, entryHeader,
                hc] at h
              exact ih _ h x hxr hkx

lemma deferLoop_ok_readable (l : List QtHeader) (st st2 : ScanState)
    (h : deferLoop l st = .ok st2) :
    ∀ hd ∈ l, hd.content ≠ none := by
  induction l generalizing st with
  | nil => intro hd hh; simp at hh
  | cons hd rest ih =>
    intro x hx
    simp only [deferLoop] at h
    cases hc : hd.content with
    | none =>
      simp only [add_mapping_rules, QtHeader.get_private_headers, hc] at h
      simp at h
    | some cs =>
      simp only [add_mapping_rules, QtHeader.get_private_headers, hc] at h
      rcases List.mem_cons.mp hx with hxe | hxr
      · subst hxe; simp [hc]
      · exact ih _ h x hxr

lemma scan_ok_loops (fs : List Entry) (p : List SymbolRule × List IncludeRule)
    (h : scan fs = .ok p) :
    ∃ st1 st2, scanLoop (globHeaders fs) ⟨manualSymbols, manualIncludes, []⟩ = .ok st1 ∧
      deferLoop st1.deferred_headers st1 = .ok st2 ∧ p = (st2.symbols_map, st2.includes_map) := by
  unfold scan at h
  cases h1 : scanLoop (globHeaders fs) ⟨manualSymbols, manualIncludes, []⟩ with
  | error er => rw [h1] at h; simp at h
  | ok st1 =>
    rw [h1] at h
    dsimp only [] at h
    cases h2 : deferLoop st1.deferred_headers st1 with
    | error er => rw [h2] at h; simp at h
    | ok st2 =>
      rw [h2] at h
      cases h
      exact ⟨st1, st2, rfl, h2, rfl⟩

lemma scanLoop_skip_filter (l : List Entry) (st : ScanState) (p : Entry → Bool)
    (hp : ∀ e ∈ l, p e = false →
      e.isDir = true ∨ (entryHeader e).classname = "QInternal") :
    scanLoop (l.filter p) st = scanLoop l st := by
  induction l generalizing st with
  | nil => simp
  | cons e rest ih =>
    have hrest : ∀ x ∈ rest, p x = false →
        x.isDir = true ∨ (entryHeader x).classname = "QInternal" :=
      fun x hx => hp x (List.mem_cons_of_mem e hx)
    by_cases hpe : p e
    · rw [List.filter_cons_of_pos hpe]
      simp only [scanLoop]
      simp only [show (⟨e.path, e.content⟩ : QtHeader) = entryHeader e from rfl]
      by_cases hdir : e.isDir
      · rw [if_pos hdir, if_pos hdir]
        exact ih st hrest
      · rw [if_neg hdir, if_neg hdir]
        by_cases hqi : (entryHeader e).classname = "QInternal"
        · rw [if_pos hqi, if_pos hqi]
          exact ih st hrest
        · rw [if_neg hqi, if_neg hqi]
          by_cases hdef : (entryHeader e).classname = (entryHeader e).modulename
          · rw [if_pos hdef, if_pos hdef]
            exact ih _ hrest
          · rw [if_neg hdef, if_neg hdef]
            cases add_mapping_rules (entryHeader e) st.symbols_map st.includes_map with
            | ok q => exact ih _ hrest
            | error er => rfl
    · rw [List.filter_cons_of_neg hpe]
      rw [ih st hrest]
      have hskip := hp e (List.mem_cons_self e rest) (Bool.not_eq_true _ ▸ hpe)
      simp only [scanLoop]
      simp only [show (⟨e.path, e.content⟩ : QtHeader) = entryHeader e from rfl]
      rcases hskip with hdir | hqi
      · rw [if_pos hdir]
      · by_cases hdir : e.isDir
        · rw [if_pos hdir]
        · rw [if_neg hdir, if_pos hqi]

lemma globHeaders_filter (fs : List Entry) (p : Entry → Bool) :
    globHeaders (fs.filter p) = (globHeaders fs).filter p := by
  simp only [globHeaders, List.filter_filter]
  exact List.filter_congr (fun e he => by rw [Bool.and_comm])

lemma scan_filter_eq (fs : List Entry) (p : Entry → Bool)
    (hp : ∀ e ∈ fs, p e = false →
      e.isDir = true ∨ (entryHeader e).classname = "QInternal") :
    scan (fs.filter p) = scan fs := by
  have hglob : scanLoop (globHeaders (fs.filter p)) ⟨manualSymbols, manualIncludes, []⟩ =
      scanLoop (globHeaders fs) ⟨manualSymbols, manualIncludes, []⟩ := by
    rw [globHeaders_filter]
    exact scanLoop_skip_filter _ _ p
      (fun e he => hp e (List.mem_of_mem_filter he))
  unfold scan
  rw [hglob]

lemma count_symbolRule (c : String) (l : List QtHeader) :
    List.count (c, c) (l.map headerSymbolRule) =
      l.countP (fun hd => hd.classname == c) := by
  induction l with
  | nil => simp
  | cons hd rest ih =>
    simp only [List.map_cons, List.count_cons, List.countP_cons, ih, headerSymbolRule]
    by_cases hc : hd.classname = c
    · simp [hc]
    · simp [hc, Prod.ext_iff]

lemma count_manualSymbols (c : String) : List.count (c, c) manualSymbols = 0 := by
  rw [List.count_eq_zero]
  intro hmem
  simp only [manualSymbols, List.mem_cons, List.mem_map, Prod.mk.injEq] at hmem
  rcases hmem with ⟨h1, h2⟩ | ⟨sym, hsym, h1, h2⟩
  · rw [h1] at h2; exact absurd h2 (by decide)
  · subst h1; subst h2
    revert hsym
    decide

lemma countP_partition (G : List Entry) (p : Entry → Bool) :
    G.countP (fun e => p e && keepNormal e) + G.countP (fun e => p e && keepDeferred e) =
      G.countP (fun e => p e && processedKeep e) := by
  induction G with
  | nil => simp
  | cons e rest ih =>
    simp only [List.countP_cons]
    rw [← ih]
    cases hp : p e <;> cases hk : processedKeep e <;> cases hd : entryDeferred e <;>
      simp [keepNormal, keepDeferred, hp, hk, hd] <;> omega

lemma jsonline_symbolJson (r : SymbolRule) : jsonline (symbolJson r) = claimSymbolLine r := by
  simp only [jsonline, symbolJson, dumps, dumpObj, dumpList, claimSymbolLine, claimJsonStr,
    joinSep]
  apply String.ext
  simp [String.data_append, List.append_assoc]

lemma jsonline_includeJson (r : IncludeRule) :
    jsonline (includeJson r) = claimIncludeLine r := by
  simp only [jsonline, includeJson, dumps, dumpObj, dumpList, claimIncludeLine, claimJsonStr,
    joinSep]
  apply String.ext
  simp [String.data_append, List.append_assoc]

lemma hexVal_hexDigit (d : Nat) (hd : d < 16) : hexVal (hexDigit d) = some d := by
  interval_cases d <;> decide

lemma hex4Val_digits (n : Nat) (hn : n < 65536) :
    hex4Val (hexDigit (n / 4096 % 16)) (hexDigit (n / 256 % 16))
      (hexDigit (n / 16 % 16)) (hexDigit (n % 16)) = some n := by
  unfold hex4Val
  rw [hexVal_hexDigit _ (by omega), hexVal_hexDigit _ (by omega),
    hexVal_hexDigit _ (by omega), hexVal_hexDigit _ (by omega)]
  simp only [Option.bind_eq_bind, Option.some_bind, Option.some.injEq]
  omega

lemma char_valid_nat (c : Char) :
    c.toNat < 0xD800 ∨ (0xDFFF < c.toNat ∧ c.toNat < 0x110000) := by
  have := c.valid
  unfold UInt32.isValidChar Nat.isValidChar at this
  exact this

lemma parseJsonString_cons_ne (c : Char) (h1 : c ≠ '"') (h2 : c ≠ '\\')
    (rest : List Char) :
    parseJsonString (c :: rest) = (parseJsonString rest).map (fun p => (c :: p.1, p.2)) := by
  rw [parseJsonString]
  · exact h1
  · exact h2

lemma parseJsonString_escapeChar (c : Char) (rest : List Char) :
    parseJsonString (escapeChar c ++ rest) =
      (parseJsonString rest).map (fun p => (c :: p.1, p.2)) := by
  unfold escapeChar
  by_cases h1 : c = '\\'
  · subst h1
    simp [parseJsonString, unescapeChar]
  rw [if_neg h1]
  by_cases h2 : c = '"'
  · subst h2
    simp [parseJsonString, unescapeChar]
  rw [if_neg h2]
  by_cases h3 : 0x20 ≤ c.toNat ∧ c.toNat ≤ 0x7e
  · rw [if_pos h3]
    simpa using parseJsonString_cons_ne c h2 h1 rest
  rw [if_neg h3]
  by_cases h4 : c = '\x08'
  · subst h4; simp [parseJsonString, unescapeChar]
  rw [if_neg h4]
  by_cases h5 : c = '\t'
  · subst h5; simp [parseJsonString, unescapeChar]
  rw [if_neg h5]
  by_cases h6 : c = '\n'
  · subst h6; simp [parseJsonString, unescapeChar]
  rw [if_neg h6]
  by_cases h7 : c = '\x0c'
  · subst h7; simp [parseJsonString, unescapeChar]
  rw [if_neg h7]
  by_cases h8 : c = '\r'
  · subst h8; simp [parseJsonString, unescapeChar]
  rw [if_neg h8]
  by_cases h9 : c.toNat < 0x10000
  · rw [if_pos h9]
    simp only [hex4, List.cons_append, List.nil_append]
    rw [parseJsonString]
    rw [hex4Val_digits c.toNat (by omega)]
    dsimp only []
    rw [if_neg (by rcases char_valid_nat c with hv | hv <;> omega)]
    rw [Char.ofNat_toNat]
  · rw [if_neg h9]
    simp only [hex4, List.cons_append, List.nil_append]
    rw [parseJsonString]
    rw [hex4Val_digits (0xD800 + (c.toNat - 0x10000) / 0x400) (by
      rcases char_valid_nat c with hv | hv <;> omega)]
    dsimp only []
    rw [if_pos (And.intro (by omega)
      (by rcases char_valid_nat c with hv | hv <;> omega))]
    try dsimp only []
    try rw [if_pos (show ('\\' = '\\' ∧ 'u' = 'u') from And.intro rfl rfl)]
    rw [hex4Val_digits (0xDC00 + (c.toNat - 0x10000) % 0x400) (by omega)]
    dsimp only []
    rw [if_pos (And.intro (by omega) (by omega))]
    have harith : 0x10000 + (0xD800 + (c.toNat - 0x10000) / 0x400 - 0xD800) * 0x400 +
        (0xDC00 + (c.toNat - 0x10000) % 0x400 - 0xDC00) = c.toNat := by omega
    rw [harith, Char.ofNat_toNat]

lemma mk_data (s : String) : String.mk s.data = s := rfl

lemma jsonEscape_append (a b : List Char) :
    jsonEscape (a ++ b) = jsonEscape a ++ jsonEscape b := by
  simp [jsonEscape]

lemma parseJsonString_jsonEscape (s rest : List Char) :
    parseJsonString (jsonEscape s ++ '"' :: rest) = some (s, rest) := by
  induction s with
  | nil => rfl
  | cons c s2 ih =>
    have hb : jsonEscape (c :: s2) = escapeChar c ++ jsonEscape s2 := by
      simp [jsonEscape]
    rw [hb, List.append_assoc, parseJsonString_escapeChar, ih]
    rfl

lemma stripAngles_concat (d : List Char) :
    stripAngles ('<' :: (d ++ ['>'])) = some (String.mk d) := by
  simp [stripAngles, List.getLast?_concat, List.dropLast_concat]

lemma splitAtSep_append (m n : List Char)
    (hm : ∀ a b : List Char, m ≠ a ++ '/' :: ')' :: '?' :: b) :
    splitAtSep (m ++ '/' :: ')' :: '?' :: n) = some (m, n) := by
  induction m with
  | nil => simp [splitAtSep, List.isPrefixOf]
  | cons c m2 ih =>
    have hnp : (['/', ')', '?'].isPrefixOf (c :: (m2 ++ '/' :: ')' :: '?' :: n))) = false := by
      by_contra hcon
      rw [Bool.not_eq_false, List.isPrefixOf_iff_prefix] at hcon
      obtain ⟨t, ht⟩ := hcon
      simp only [List.cons_append, List.nil_append] at ht
      injection ht with ha hb
      subst ha
      cases m2 with
      | nil =>
        simp only [List.nil_append] at hb
        injection hb with hc hd
        exact absurd hc (by decide)
      | cons x m3 =>
        simp only [List.cons_append] at hb
        injection hb with hc hd
        subst hc
        cases m3 with
        | nil =>
          simp only [List.nil_append] at hd
          injection hd with he hf
          exact absurd he (by decide)
        | cons y m4 =>
          simp only [List.cons_append] at hd
          injection hd with he hf
          subst he
          exact hm [] m4 rfl
    have hm2 : ∀ a b : List Char, m2 ≠ a ++ '/' :: ')' :: '?' :: b := by
      intro a b hab
      exact hm (c :: a) b (by rw [hab]; simp)
    rw [List.cons_append, splitAtSep, if_neg (by simp [hnp]), ih hm2]
    rfl

lemma expectLit_append (lit x : List Char) : expectLit lit (lit ++ x) = some x := by
  simp [expectLit, List.isPrefixOf_iff_prefix, List.prefix_append, List.drop_left]

lemma map_from_data (r : IncludeRule) :
    (map_from r).data =
      patHead ++ ((r.1.data ++ '/' :: ')' :: '?' :: r.2.1.data) ++ patTail) := by
  simp [map_from, patHead, patTail, String.data_append]

lemma decomposePattern_map_from (r : IncludeRule)
    (hm : ∀ a b : List Char, r.1.data ≠ a ++ '/' :: ')' :: '?' :: b) :
    decomposePattern (map_from r).data = some (r.1, r.2.1) := by
  rw [map_from_data]
  unfold decomposePattern
  rw [expectLit_append]
  have hlen : ((r.1.data ++ '/' :: ')' :: '?' :: r.2.1.data) ++ patTail).length - 7 =
      (r.1.data ++ '/' :: ')' :: '?' :: r.2.1.data).length := by
    simp [patTail]
    omega
  dsimp only []
  rw [if_pos (by
    constructor
    · simp [patTail]
      omega
    · rw [hlen, List.drop_left])]
  rw [hlen, List.take_left]
  have hsplit : splitAtSep (r.1.data ++ '/' :: ')' :: '?' :: r.2.1.data) =
      some (r.1.data, r.2.1.data) := splitAtSep_append _ _ hm
  rw [hsplit]

lemma claimSymbolLine_data (r : SymbolRule) :
    (claimSymbolLine r).data =
      ' ' :: ' ' :: '\x7b' :: '"' :: (jsonEscape "symbol".data ++ '"' :: ':' :: ' ' :: '[' ::
        '"' :: (jsonEscape r.1.data ++ '"' :: ',' :: ' ' ::
        '"' :: (jsonEscape "private".data ++ '"' :: ',' :: ' ' ::
        '"' :: (jsonEscape ('<' :: (r.2.data ++ ['>'])) ++ '"' :: ',' :: ' ' ::
        '"' :: (jsonEscape "public".data ++ ['"', ']', '\x7d']))))) := by
  simp [claimSymbolLine, claimJsonStr, joinSep, String.data_append]

lemma parseRuleLine_symbol (r : SymbolRule) (rest : List Char) :
    parseRuleLine ((claimSymbolLine r).data ++ rest) = some (.sym r.1 r.2, rest) := by
  rw [claimSymbolLine_data]
  simp only [List.cons_append, List.append_assoc, List.nil_append]
  simp [parseRuleLine, expectLit, List.isPrefixOf, Option.bind, parseStringTok,
    parseJsonString_jsonEscape, mk_data, stripAngles_concat]

lemma claimIncludeLine_data (r : IncludeRule) :
    (claimIncludeLine r).data =
      ' ' :: ' ' :: '\x7b' :: '"' :: (jsonEscape "include".data ++ '"' :: ':' :: ' ' :: '[' ::
        '"' :: (jsonEscape (map_from r).data ++ '"' :: ',' :: ' ' ::
        '"' :: (jsonEscape "private".data ++ '"' :: ',' :: ' ' ::
        '"' :: (jsonEscape ('<' :: (r.2.2.data ++ ['>'])) ++ '"' :: ',' :: ' ' ::
        '"' :: (jsonEscape "public".data ++ ['"', ']', '\x7d']))))) := by
  simp [claimIncludeLine, claimJsonStr, joinSep, String.data_append]

lemma parseRuleLine_include (r : IncludeRule) (rest : List Char)
    (hm : ∀ a b : List Char, r.1.data ≠ a ++ '/' :: ')' :: '?' :: b) :
    parseRuleLine ((claimIncludeLine r).data ++ rest) = some (.inc r.1 r.2.1 r.2.2, rest) := by
  rw [claimIncludeLine_data]
  simp only [List.cons_append, List.append_assoc, List.nil_append]
  simp [parseRuleLine, expectLit, List.isPrefixOf, Option.bind, parseStringTok,
    parseJsonString_jsonEscape, mk_data, stripAngles_concat, decomposePattern_map_from r hm]

lemma parseRuleLine_claimLine (x : PRule) (rest : List Char) (hf : incFree x) :
    parseRuleLine ((claimLine x).data ++ rest) = some (x, rest) := by
  cases x with
  | sym s hh => exact parseRuleLine_symbol (s, hh) rest
  | inc m n hh => exact parseRuleLine_include (m, n, hh) rest hf

lemma claimLine_data_cons (x : PRule) : ∃ t, (claimLine x).data = ' ' :: t := by
  cases x with
  | sym s hh => exact ⟨_, claimSymbolLine_data (s, hh)⟩
  | inc m n hh => exact ⟨_, claimIncludeLine_data (m, n, hh)⟩

lemma parseLinesAux_join (l : List PRule) (hl : l ≠ []) (hf : ∀ x ∈ l, incFree x) :
    ∀ fuel, ((joinSep ",\n" (l.map claimLine)).data ++ ['\n', ']', '\n', '\n']).length ≤ fuel →
      parseLinesAux fuel ((joinSep ",\n" (l.map claimLine)).data ++ ['\n', ']', '\n', '\n']) =
        some l := by
  induction l with
  | nil => exact absurd rfl hl
  | cons x l2 ih =>
    intro fuel hfuel
    cases l2 with
    | nil =>
      cases fuel with
      | zero => simp at hfuel
      | succ f =>
        simp only [List.map_cons, List.map_nil, joinSep]
        rw [parseLinesAux, parseRuleLine_claimLine x _ (hf x (List.mem_cons_self x []))]
        dsimp only []
        rw [if_pos rfl]
    | cons y l3 =>
      cases fuel with
      | zero => simp at hfuel
      | succ f =>
        obtain ⟨t, ht⟩ := claimLine_data_cons x
        simp only [List.map_cons, joinSep] at hfuel ⊢
        have hshape : ((claimLine x ++ ",\n" ++ joinSep ",\n"
            (claimLine y :: l3.map claimLine)).data) ++ ['\n', ']', '\n', '\n'] =
            (claimLine x).data ++ (',' :: '\n' ::
              ((joinSep ",\n" (claimLine y :: l3.map claimLine)).data ++
                ['\n', ']', '\n', '\n'])) := by
          simp [String.data_append]
        rw [hshape, parseLinesAux,
          parseRuleLine_claimLine x _ (hf x (List.mem_cons_self x _))]
        dsimp only []
        rw [if_neg (by simp), if_pos (And.intro rfl rfl)]
        have hrec := ih (by simp) (fun z hz => hf z (List.mem_cons_of_mem x hz)) f (by
          rw [hshape] at hfuel
          simp only [List.length_append, List.length_cons, ht] at hfuel ⊢
          simp only [List.map_cons]
          omega)
        simp only [List.map_cons] at hrec
        rw [hrec]
        rfl

lemma ruleSplit_join (s : List SymbolRule) (i : List IncludeRule) :
    ruleSplit (s.map (fun r => PRule.sym r.1 r.2) ++
      i.map (fun r => PRule.inc r.1 r.2.1 r.2.2)) = (s, i) := by
  unfold ruleSplit
  simp only [List.filterMap_append, List.filterMap_map]
  rw [Prod.mk.injEq]
  constructor
  · have h1 : ∀ l : List SymbolRule,
        l.filterMap ((fun r => match r with
          | PRule.sym a b => some (a, b) | _ => none) ∘ (fun r => PRule.sym r.1 r.2)) = l := by
      intro l
      induction l with
      | nil => rfl
      | cons a t iht => simp [List.filterMap_cons, iht]
    have h2 : ∀ l : List IncludeRule,
        l.filterMap ((fun r => match r with
          | PRule.sym a b => some (a, b) | _ => none) ∘
            (fun r => PRule.inc r.1 r.2.1 r.2.2)) = [] := by
      intro l
      induction l with
      | nil => rfl
      | cons a t iht => simp [List.filterMap_cons, iht]
    simp [h1, h2]
  · have h1 : ∀ l : List SymbolRule,
        l.filterMap ((fun r => match r with
          | PRule.inc a b c => some (a, b, c) | _ => none) ∘ (fun r => PRule.sym r.1 r.2)) = [] := by
      intro l
      induction l with
      | nil => rfl
      | cons a t iht => simp [List.filterMap_cons, iht]
    have h2 : ∀ l : List IncludeRule,
        l.filterMap ((fun r => match r with
          | PRule.inc a b c => some (a, b, c) | _ => none) ∘
            (fun r => PRule.inc r.1 r.2.1 r.2.2)) = l := by
      intro l
      induction l with
      | nil => rfl
      | cons a t iht => simp [List.filterMap_cons, iht]
    simp [h1, h2]

lemma dropWhile_all_append (p : Char → Bool) (l x : List Char)
    (hl : ∀ c ∈ l, p c = true) :
    List.dropWhile p (l ++ x) = List.dropWhile p x := by
  induction l with
  | nil => rfl
  | cons c t ih =>
    rw [List.cons_append, List.dropWhile_cons_of_pos (hl c (List.mem_cons_self c t))]
    exact ih (fun d hd => hl d (List.mem_cons_of_mem c hd))

lemma outputDocument_data (s : List SymbolRule) (i : List IncludeRule) :
    (outputDocument s i).data = OUTFILEHDR.data ++ '\n' :: '[' :: '\n' ::
      ((joinSep ",\n" (s.map claimSymbolLine ++ i.map claimIncludeLine)).data ++
        ['\n', ']', '\n', '\n']) := by
  unfold outputDocument build_imp_lines
  rw [show (fun r => jsonline (symbolJson r)) = claimSymbolLine from
      funext fun r => jsonline_symbolJson r,
    show (fun r => jsonline (includeJson r)) = claimIncludeLine from
      funext fun r => jsonline_includeJson r]
  simp [String.data_append]

lemma joinSep_data_space (str : String) (m : List String) (t0 : List Char)
    (h : str.data = ' ' :: t0) : ∃ t, (joinSep ",\n" (str :: m)).data = ' ' :: t := by
  cases m with
  | nil => exact ⟨t0, h⟩
  | cons y m2 =>
    refine ⟨t0 ++ (",\n" ++ joinSep ",\n" (y :: m2)).data, ?_⟩
    show (str ++ ",\n" ++ joinSep ",\n" (y :: m2)).data = _
    simp [String.data_append, h]

lemma parseDocument_output (s : List SymbolRule) (i : List IncludeRule)
    (hm : ∀ r ∈ i, ∀ a b : List Char, r.1.data ≠ a ++ '/' :: ')' :: '?' :: b) :
    parseDocument (outputDocument s i) = some (s, i) := by
  unfold parseDocument
  rw [outputDocument_data,
    dropWhile_all_append _ _ _ (by decide),
    List.dropWhile_cons_of_neg (by decide)]
  dsimp only [List.drop]
  rw [if_pos (And.intro rfl rfl)]
  by_cases hempty : s = [] ∧ i = []
  · obtain ⟨hs, hi⟩ := hempty
    subst hs; subst hi
    simp [joinSep]
  · have hmaps : s.map claimSymbolLine ++ i.map claimIncludeLine =
        (s.map (fun r => PRule.sym r.1 r.2) ++
          i.map (fun r => PRule.inc r.1 r.2.1 r.2.2)).map claimLine := by
      simp only [List.map_append, List.map_map]
      rfl
    set l := s.map (fun r => PRule.sym r.1 r.2) ++
      i.map (fun r => PRule.inc r.1 r.2.1 r.2.2) with hl
    have hlne : l ≠ [] := by
      rw [hl]
      intro hcon
      rcases List.append_eq_nil.mp hcon with ⟨h1, h2⟩
      exact hempty ⟨List.map_eq_nil_iff.mp h1, List.map_eq_nil_iff.mp h2⟩
    have hlf : ∀ x ∈ l, incFree x := by
      intro x hx
      rw [hl] at hx
      rcases List.mem_append.mp hx with hx1 | hx2
      · obtain ⟨r, hr, hrx⟩ := List.mem_map.mp hx1
        rw [← hrx]
        trivial
      · obtain ⟨r, hr, hrx⟩ := List.mem_map.mp hx2
        rw [← hrx]
        exact hm r hr
    rw [hmaps]
    have hhead : ∃ t, (joinSep ",\n" (l.map claimLine)).data = ' ' :: t := by
      cases hlcase : l with
      | nil => exact absurd hlcase hlne
      | cons x l2 =>
        obtain ⟨t0, ht0⟩ := claimLine_data_cons x
        simp only [List.map_cons]
        exact joinSep_data_space _ _ _ ht0
    obtain ⟨t, ht⟩ := hhead
    rw [if_neg (by rw [ht]; simp)]
    rw [parseLinesAux_join l hlne hlf _ le_rfl]
    dsimp only [Option.map]
    rw [ruleSplit_join]

lemma splitAtSep_append_isSome (a b : List Char) :
    (splitAtSep (a ++ '/' :: ')' :: '?' :: b)).isSome = true := by
  induction a with
  | nil =>
    rw [List.nil_append, splitAtSep, if_pos (by simp [List.isPrefixOf])]
    rfl
  | cons c a2 ih =>
    rw [List.cons_append, splitAtSep]
    by_cases hp : ['/', ')', '?'].isPrefixOf (c :: (a2 ++ '/' :: ')' :: '?' :: b))
    · rw [if_pos hp]
      rfl
    · rw [if_neg hp]
      rcases Option.isSome_iff_exists.mp ih with ⟨p, hp2⟩
      rw [hp2]
      rfl

lemma sep_free_of_splitAtSep_none (cs : List Char) (h : splitAtSep cs = none) :
    ∀ a b : List Char, cs ≠ a ++ '/' :: ')' :: '?' :: b := by
  intro a b hab
  have := splitAtSep_append_isSome a b
  rw [← hab, h] at this
  exact absurd this (by simp)

/-- C4: in a successful scan, the output rule lists decompose as the manual
overrides followed by the rules of all headers whose class name differs from
their module name (in enumeration order) followed by the rules of all headers
whose class name equals their module name: umbrella headers are collected
separately and their rules are appended only after every non-ambiguous header
has been processed. -/
theorem c4_deferred_rules_last (fs : List Entry) (s : List SymbolRule)
    (i : List IncludeRule) (h : scan fs = .ok (s, i)) :
    s = manualSymbols ++
        (normalEntries fs).map (fun e => headerSymbolRule (entryHeader e)) ++
        (deferredEntries fs).map (fun e => headerSymbolRule (entryHeader e)) ∧
      i = manualIncludes ++
        (normalEntries fs).flatMap (fun e => headerIncludeRules (entryHeader e)) ++
        (deferredEntries fs).flatMap (fun e => headerIncludeRules (entryHeader e)) :=
  scan_ok fs s i h

/-- C5: in a successful scan, the manual override rules form a prefix of the
symbol-rule list and of the include-rule list: they appear before every
scan-derived rule. -/
theorem c5_overrides_first (fs : List Entry) (s : List SymbolRule)
    (i : List IncludeRule) (h : scan fs = .ok (s, i)) :
    manualSymbols <+: s ∧ manualIncludes <+: i := by
  obtain ⟨h1, h2⟩ := scan_ok fs s i h
  constructor
  · rw [h1, List.append_assoc]
    exact List.prefix_append _ _
  · rw [h2, List.append_assoc]
    exact List.prefix_append _ _

/-- C7: a header whose class name is QInternal contributes no rule at all:
deleting every entry named QInternal from the filesystem leaves the scan
result (rules and error behaviour alike) unchanged, for every input tree. -/
theorem c7_qinternal_contributes_nothing (fs : List Entry) :
    scan (fs.filter (fun e => !((entryHeader e).classname == "QInternal"))) = scan fs := by
  apply scan_filter_eq
  intro e he hpe
  right
  simpa using hpe

/-- C6: the serialized document is exactly the claimed format: a first line
holding the generated-file comment that names the generating script, then one
top-level JSON array whose lines are the compact single-key objects, every
symbol rule line before every include rule line, each sublist in insertion
order, symbol rules rendered as "symbol": [s, "private", "<h>", "public"] and
include rules as "include": [pattern, "private", "<h>", "public"]. -/
theorem c6_document_format (symbols_map : List SymbolRule) (includes_map : List IncludeRule) :
    outputDocument symbols_map includes_map = claimDocument symbols_map includes_map := by
  unfold outputDocument build_imp_lines claimDocument
  rw [show (fun r => jsonline (symbolJson r)) = claimSymbolLine from
      funext fun r => jsonline_symbolJson r,
    show (fun r => jsonline (includeJson r)) = claimIncludeLine from
      funext fun r => jsonline_includeJson r]

/-- C10: header discovery only sees entries exactly one directory level below
the root: an entry whose path does not have exactly two components below the
root is never globbed, and deleting all such entries from the tree leaves the
scan result unchanged. -/
theorem c10_depth_exactly_two :
    (∀ (fs : List Entry) (e : Entry), e.path.length ≠ 2 → e ∉ globHeaders fs) ∧
      ∀ fs : List Entry, scan (fs.filter (fun e => e.path.length == 2)) = scan fs := by
  constructor
  · intro fs e hlen hmem
    have hg : globMatch e = true := (List.mem_filter.mp hmem).2
    rcases (globMatch_iff e).mp hg with ⟨d, f, hdf, -⟩
    rw [hdf] at hlen
    exact hlen rfl
  · intro fs
    have hglob : globHeaders (fs.filter (fun e => e.path.length == 2)) = globHeaders fs := by
      rw [globHeaders_filter]
      rw [List.filter_eq_self]
      intro e he
      have hg : globMatch e = true := (List.mem_filter.mp he).2
      rcases (globMatch_iff e).mp hg with ⟨d, f, hdf, -⟩
      simp [hdf]
    unfold scan
    rw [hglob]

/-- C3 (amended): among entries exactly one level below the root whose
directory and file names are not dot-initial, a non-directory entry is a
candidate of the catalog builder exactly when its name is nonempty and its
last character is neither a dot nor the letter h; in particular every name
ending in .h is excluded, but so is any name merely ending in the character h
or in a bare dot, because the glob pattern *[!.h] constrains only the final
character. -/
theorem c3_candidate_characterisation (fs : List Entry) (e : Entry) :
    e ∈ candidates fs ↔
      e ∈ fs ∧ e.isDir = false ∧
        ∃ d f, e.path = [d, f] ∧ hiddenName d = false ∧ hiddenName f = false ∧
          ∃ c, f.data.getLast? = some c ∧ c ≠ '.' ∧ c ≠ 'h' := by
  unfold candidates globHeaders
  rw [List.mem_filter, List.mem_filter]
  constructor
  · rintro ⟨⟨hfs, hglob⟩, hdir⟩
    refine ⟨hfs, by simpa using hdir, (globMatch_iff e).mp hglob⟩
  · rintro ⟨hfs, hdir, hrest⟩
    exact ⟨⟨hfs, (globMatch_iff e).mpr hrest⟩, by simp [hdir]⟩

/-- C1 (amended): in a successful scan, for every processed header H (a glob
result that is neither a directory nor named QInternal) and every name n that
the include regex extracts from H's text, the include rule
(H.modulename, n, H.classname) occurs in the output include-rule list (at
least once; duplicate extractions or coinciding overrides can make it occur
more than once). -/
theorem c1_include_rules_present (fs : List Entry) (s : List SymbolRule)
    (i : List IncludeRule) (h : scan fs = .ok (s, i)) (e : Entry)
    (he : e ∈ globHeaders fs) (hdir : e.isDir = false)
    (hqi : (entryHeader e).classname ≠ "QInternal") (cs : List Char)
    (hc : e.content = some cs) (n : String) (hn : n ∈ (findIncludes cs).map String.mk) :
    ((entryHeader e).modulename, n, (entryHeader e).classname) ∈ i := by
  obtain ⟨-, h2⟩ := scan_ok fs s i h
  rw [h2]
  have hpk : processedKeep e = true := by
    simp [processedKeep, entryHeader, hdir]
    simpa [entryHeader] using hqi
  have hrule : ((entryHeader e).modulename, n, (entryHeader e).classname) ∈
      headerIncludeRules (entryHeader e) := by
    unfold headerIncludeRules
    rw [show (entryHeader e).content = e.content from rfl, hc]
    exact List.mem_map.mpr ⟨n, by simpa using hn, rfl⟩
  by_cases hdef : entryDeferred e = true
  · have hmem : e ∈ deferredEntries fs :=
      List.mem_filter.mpr ⟨he, by simp [keepDeferred, hpk, hdef]⟩
    exact List.mem_append.mpr (Or.inr
      (List.mem_flatMap.mpr ⟨e, hmem, hrule⟩))
  · have hmem : e ∈ normalEntries fs :=
      List.mem_filter.mpr ⟨he, by simp [keepNormal, hpk]; simpa using hdef⟩
    exact List.mem_append.mpr (Or.inl (List.mem_append.mpr (Or.inr
      (List.mem_flatMap.mpr ⟨e, hmem, hrule⟩))))

/-- C2 (amended): in a successful scan, the symbol rule (c, c) occurs in the
output symbol-rule list exactly as many times as there are processed headers
whose class name is c (the manual overrides never contribute such a
self-mapping pair); it is unique exactly when a single processed header bears
the class name, and deferred umbrella headers contribute such a rule too. -/
theorem c2_symbol_rule_multiplicity (fs : List Entry) (s : List SymbolRule)
    (i : List IncludeRule) (h : scan fs = .ok (s, i)) (c : String) :
    s.count (c, c) =
      ((globHeaders fs).filter processedKeep).countP
        (fun e => (entryHeader e).classname == c) := by
  obtain ⟨h1, -⟩ := scan_ok fs s i h
  rw [h1, List.count_append, List.count_append, count_manualSymbols]
  have hn : (normalEntries fs).map (fun e => headerSymbolRule (entryHeader e)) =
      ((normalEntries fs).map entryHeader).map headerSymbolRule := by
    rw [List.map_map]
    rfl
  have hd : (deferredEntries fs).map (fun e => headerSymbolRule (entryHeader e)) =
      ((deferredEntries fs).map entryHeader).map headerSymbolRule := by
    rw [List.map_map]
    rfl
  rw [hn, hd, count_symbolRule, count_symbolRule, List.countP_map, List.countP_map]
  unfold normalEntries deferredEntries
  rw [List.countP_filter, List.countP_filter, List.countP_filter]
  have := countP_partition (globHeaders fs)
    (fun e => (entryHeader e).classname == c)
  simp only [Function.comp] at *
  omega

/-- C9: if any glob-discovered entry that the scan processes (not a directory,
not named QInternal) cannot be opened or read, the IOError from the read
propagates uncaught out of the scan and main produces no output document at
all: no rule file results from a partial scan. -/
theorem c9_read_error_propagates (fs : List Entry) (e : Entry)
    (he : e ∈ globHeaders fs) (hdir : e.isDir = false)
    (hqi : (entryHeader e).classname ≠ "QInternal") (hc : e.content = none) :
    mainProgram fs = .error IOError.ioError := by
  cases hscan : scan fs with
  | error er =>
    cases er
    simp [mainProgram, hscan]
  | ok p =>
    exfalso
    obtain ⟨st1, st2, hl1, hl2, -⟩ := scan_ok_loops fs p hscan
    by_cases hdef : entryDeferred e = true
    · have hpk : keepDeferred e = true := by
        simp [keepDeferred, processedKeep, entryHeader, hdir, hdef]
        simpa [entryHeader] using hqi
      have hdmem : entryHeader e ∈ st1.deferred_headers := by
        obtain ⟨-, -, h3⟩ := scanLoop_ok _ _ _ hl1
        rw [h3]
        simp only [List.nil_append]
        exact List.mem_map.mpr ⟨e, List.mem_filter.mpr ⟨he, hpk⟩, rfl⟩
      exact deferLoop_ok_readable _ _ _ hl2 (entryHeader e) hdmem hc
    · have hkn : keepNormal e = true := by
        simp [keepNormal, processedKeep, entryDeferred, entryHeader, hdir, hdef]
        refine ⟨by simpa [entryHeader] using hqi, ?_⟩
        simpa [entryDeferred, entryHeader] using hdef
      exact scanLoop_ok_readable _ _ _ hl1 e he hkn hc

/-- C8 (amended): serialisation followed by parsing of the documented
array-of-single-key-objects format is the identity on rule lists provided no
include rule's module name contains the three-character sequence slash, close
parenthesis, question mark (the sequence closing the optional module group in
the emitted pattern); without that restriction the pattern rendering is not
injective, so no parser can invert it. -/
theorem c8_serialisation_roundtrip (symbols_map : List SymbolRule)
    (includes_map : List IncludeRule)
    (hm : ∀ r ∈ includes_map, ∀ a b : List Char,
      r.1.data ≠ a ++ '/' :: ')' :: '?' :: b) :
    parseDocument (outputDocument symbols_map includes_map) =
      some (symbols_map, includes_map) :=
  parseDocument_output symbols_map includes_map hm

/-- C1 counterexample: a header whose text contains the same quoted include
twice makes the scan append the identical include rule twice, so the output
does not contain exactly one matching rule. -/
theorem c1_counterexample :
    "x" ∈ (findIncludes "#include \"x.h\"\n#include \"x.h\"\n".data).map String.mk ∧
      (scan [⟨["A", "B"], false,
          some "#include \"x.h\"\n#include \"x.h\"\n".data⟩]).toOption.map
        (fun p => p.2.count ("A", "x", "B")) = some 2 := by
  constructor
  · decide
  · decide

/-- C1 witness: a concrete successful scan in which the extracted include of
the processed header A/B yields the include rule (A, x, B) in the output. -/
theorem c1_witness :
    scan [⟨["A", "B"], false, some "#include \"x.h\"\n".data⟩] =
        .ok (manualSymbols ++ [("B", "B")], manualIncludes ++ [("A", "x", "B")]) ∧
      ("A", "x", "B") ∈ manualIncludes ++ [("A", "x", "B")] := by
  refine ⟨by decide, ?_⟩
  exact c1_include_rules_present
    [⟨["A", "B"], false, some "#include \"x.h\"\n".data⟩]
    (manualSymbols ++ [("B", "B")]) (manualIncludes ++ [("A", "x", "B")]) (by decide)
    ⟨["A", "B"], false, some "#include \"x.h\"\n".data⟩ (by decide) rfl (by decide)
    "#include \"x.h\"\n".data rfl "x" (by decide)

/-- C2 counterexample: two processed headers with the same base name in two
modules each append the symbol rule (Foo, Foo), so the output contains that
rule twice, not exactly once. -/
theorem c2_counterexample :
    (scan [⟨["A", "Foo"], false, some []⟩, ⟨["B", "Foo"], false, some []⟩]).toOption.map
      (fun p => p.1.count ("Foo", "Foo")) = some 2 := by
  decide

/-- C2 witness: the multiplicity equation evaluated on a concrete scan with a
single processed header named Foo. -/
theorem c2_witness :
    scan [⟨["A", "Foo"], false, some []⟩] =
        .ok (manualSymbols ++ [("Foo", "Foo")], manualIncludes) ∧
      (manualSymbols ++ [("Foo", "Foo")]).count ("Foo", "Foo") =
        ((globHeaders [⟨["A", "Foo"], false, some []⟩]).filter processedKeep).countP
          (fun e => (entryHeader e).classname == "Foo") := by
  refine ⟨by decide, ?_⟩
  exact c2_symbol_rule_multiplicity [⟨["A", "Foo"], false, some []⟩]
    (manualSymbols ++ [("Foo", "Foo")]) manualIncludes (by decide) "Foo"

/-- C3 counterexample: the file A/graph is not a directory and its name does
not end in the two-character suffix .h, yet it is not a candidate, because
the glob pattern *[!.h] rejects any name whose final character is h. -/
theorem c3_counterexample :
    "graph".data.drop ("graph".data.length - 2) ≠ ['.', 'h'] ∧
      candidates [⟨["A", "graph"], false, some []⟩] = [] := by
  constructor
  · decide
  · decide

/-- C4 witness: a concrete scan with one umbrella header M/M listed before a
normal header M/B still emits M/B's rules first and M/M's rules last. -/
theorem c4_witness :
    scan [(⟨["M", "M"], false, some []⟩ : Entry), ⟨["M", "B"], false, some []⟩] =
        .ok (manualSymbols ++ [("B", "B"), ("M", "M")], manualIncludes) ∧
      (manualSymbols ++ [("B", "B"), ("M", "M")] = manualSymbols ++
          (normalEntries [(⟨["M", "M"], false, some []⟩ : Entry),
            ⟨["M", "B"], false, some []⟩]).map (fun e => headerSymbolRule (entryHeader e)) ++
          (deferredEntries [(⟨["M", "M"], false, some []⟩ : Entry),
            ⟨["M", "B"], false, some []⟩]).map (fun e => headerSymbolRule (entryHeader e)) ∧
        manualIncludes = manualIncludes ++
          (normalEntries [(⟨["M", "M"], false, some []⟩ : Entry),
            ⟨["M", "B"], false, some []⟩]).flatMap
              (fun e => headerIncludeRules (entryHeader e)) ++
          (deferredEntries [(⟨["M", "M"], false, some []⟩ : Entry),
            ⟨["M", "B"], false, some []⟩]).flatMap
              (fun e => headerIncludeRules (entryHeader e))) := by
  refine ⟨by decide, ?_⟩
  exact c4_deferred_rules_last _ _ _ (by decide)

/-- C5 witness: on the same concrete scan the manual overrides are a prefix
of both output lists. -/
theorem c5_witness :
    scan [(⟨["M", "M"], false, some []⟩ : Entry), ⟨["M", "B"], false, some []⟩] =
        .ok (manualSymbols ++ [("B", "B"), ("M", "M")], manualIncludes) ∧
      (manualSymbols <+: manualSymbols ++ [("B", "B"), ("M", "M")] ∧
        manualIncludes <+: manualIncludes) := by
  refine ⟨by decide, ?_⟩
  exact c5_overrides_first
    [(⟨["M", "M"], false, some []⟩ : Entry), ⟨["M", "B"], false, some []⟩]
    (manualSymbols ++ [("B", "B"), ("M", "M")]) manualIncludes (by decide)

/-- C8 counterexample: two distinct include rules serialise to the same
document, because the module name may itself contain the separator sequence
of the emitted pattern; hence parsing cannot recover the serialised rules and
the spec-modelled parser indeed returns the other reading. -/
theorem c8_counterexample :
    outputDocument [] [("a/)?b", "c", "H")] = outputDocument [] [("a", "b/)?c", "H")] ∧
      (("a/)?b", "c", "H") : IncludeRule) ≠ ("a", "b/)?c", "H") ∧
      parseDocument (outputDocument [] [("a/)?b", "c", "H")]) ≠
        some ([], [("a/)?b", "c", "H")]) := by
  refine ⟨by decide, by decide, by decide⟩

/-- C8 witness: the round trip evaluated on a concrete rule set whose module
name is free of the separator sequence. -/
theorem c8_witness :
    parseDocument (outputDocument [("QRect", "QRect")] [("QtCore", "qrect_p", "QRect")]) =
      some ([("QRect", "QRect")], [("QtCore", "qrect_p", "QRect")]) := by
  apply c8_serialisation_roundtrip
  intro r hr
  rw [List.mem_singleton] at hr
  subst hr
  exact sep_free_of_splitAtSep_none _ (by decide)

/-- C9 witness: a tree with one unreadable discovered header makes main fail
with the uncaught IOError instead of producing a document. -/
theorem c9_witness :
    mainProgram [⟨["A", "B"], false, none⟩] = .error IOError.ioError := by
  exact c9_read_error_propagates [⟨["A", "B"], false, none⟩]
    ⟨["A", "B"], false, none⟩ (by decide) rfl (by decide) rfl

/-- C10 witness: a file directly in the root is never globbed, and filtering
the tree to entries of depth exactly two leaves the scan unchanged. -/
theorem c10_witness :
    (⟨["f"], false, some []⟩ : Entry) ∉ globHeaders [⟨["f"], false, some []⟩] ∧
      scan (([(⟨["f"], false, some []⟩ : Entry)]).filter (fun e => e.path.length == 2)) =
        scan [(⟨["f"], false, some []⟩ : Entry)] := by
  exact ⟨c10_depth_exactly_two.1 _ _ (by decide), c10_depth_exactly_two.2 _⟩
